import Mathlib

/-!
Verification of the habit-tracking domain engine of the repo-code-sync
repository (a React + Supabase habit tracker).  The definitions below are a
shallow embedding of the client-side handlers and of the SQL schema:

* `handleComplete` / `handleUndo` embed the handlers of
  `src/components/ActiveHabitCard.tsx` (the CompletionLedger operations);
* `weeklyDayData` / `loadWeeklyData` embed the per-day loop of
  `loadWeeklyData` in the WeeklyTracker component;
* `daysActive` / `successRate` embed `loadProgressData` of
  `src/pages/ProgressPage.tsx`;
* `handleJoinCommunity`, `handleCreateCommunity`, `generateCommunityCode`
  and `loadCommunities` embed the handlers of `src/pages/HomePage.tsx`
  (CommunityPage), with reads filtered by the row-level-security policies of
  the SQL migration (communities visible to their owner or to accepted
  members; membership rows visible to the community owner and to their own
  user).

Timestamps are modelled as natural numbers (seconds); the calendar day of a
timestamp is `t / 86400`, matching the ISO-date truncation used throughout
the source.
-/

/-- A row of `habit_completions`: id, completed_at timestamp, amount. -/
structure Completion where
  id : Nat
  completedAt : Nat
  amount : Nat
deriving DecidableEq, Repr

/-- The fields of a `user_habits` row used by the completion/streak logic. -/
structure UserHabit where
  currentStreak : Nat
  bestStreak : Nat
  timesPerDay : Nat
  customAmount : Option Nat
deriving DecidableEq, Repr

/-- Calendar day of a timestamp (ISO-date truncation of `completed_at`). -/
def dayOfTs (t : Nat) : Nat := t / 86400

/-- Number of completions of a habit on a given calendar day
(`completions_today` as computed by `loadData` in HabitsPage). -/
def completionsOn (ledger : List Completion) (day : Nat) : Nat :=
  (ledger.filter (fun c => dayOfTs c.completedAt == day)).length

/-- JavaScript `x || 1` applied to the nullable `custom_amount` field:
`null` and `0` are falsy, so both give 1. -/
def jsOr1 : Option Nat → Nat
  | none => 1
  | some a => if a = 0 then 1 else a

/-- `handleComplete` of ActiveHabitCard: if the habit is already completed
(today's completion count has reached `times_per_day`) the handler returns
early and nothing changes; otherwise it inserts a completion with
`amount = custom_amount || 1`, sets `current_streak` to its successor and
`best_streak` to the max of the new streak and the old best. -/
def handleComplete (now newId : Nat) (habit : UserHabit) (ledger : List Completion) :
    UserHabit × List Completion :=
  if habit.timesPerDay ≤ completionsOn ledger (dayOfTs now) then (habit, ledger)
  else
    let ledger' := ledger ++ [⟨newId, now, jsOr1 habit.customAmount⟩]
    let newStreak := habit.currentStreak + 1
    let newBestStreak := max newStreak habit.bestStreak
    ({ habit with currentStreak := newStreak, bestStreak := newBestStreak }, ledger')

/-- The only caller-visible signal `handleUndo` can emit: the toast shown
after a successful deletion. -/
inductive UndoToast
  | undone
deriving DecidableEq, Repr

/-- The completion the undo query targets: among the completions with
`completed_at` at or after the start of today, the most recent one
(order by `completed_at` descending, limit 1). -/
def undoTarget (dayStart : Nat) (ledger : List Completion) : Option Completion :=
  (ledger.filter (fun c => dayStart ≤ c.completedAt)).foldl
    (fun acc c =>
      match acc with
      | none => some c
      | some b => if b.completedAt ≤ c.completedAt then some c else some b)
    none

/-- `handleUndo` of ActiveHabitCard: if `completions_today` is zero the
handler returns early (no toast, no change); otherwise it deletes the most
recent completion of today and shows the `Undone` toast.  The habit row,
in particular `current_streak` and `best_streak`, is never touched. -/
def handleUndo (today : Nat) (habit : UserHabit) (ledger : List Completion) :
    Option UndoToast × UserHabit × List Completion :=
  if completionsOn ledger today = 0 then (none, habit, ledger)
  else
    match undoTarget (today * 86400) ledger with
    | some target => (some .undone, habit, ledger.filter (fun c => c.id != target.id))
    | none => (none, habit, ledger)

/-- A day qualifies when its completion count reaches the daily target. -/
def qualifies (timesPerDay : Nat) (ledger : List Completion) (day : Nat) : Bool :=
  timesPerDay ≤ completionsOn ledger day

/-- Count of contiguous qualifying days ending at the given day, walking
backward. -/
def streakBack (timesPerDay : Nat) (ledger : List Completion) : Nat → Nat
  | 0 => if qualifies timesPerDay ledger 0 then 1 else 0
  | d + 1 =>
      if qualifies timesPerDay ledger (d + 1) then
        streakBack timesPerDay ledger d + 1
      else 0

/-- Modelled from the spec: the StreakEngine recompute of section 4.2, which
is absent from the source.  `currentStreak` is the number of contiguous
qualifying days ending today, or ending yesterday when today has not yet
qualified. -/
def specCurrentStreak (timesPerDay : Nat) (ledger : List Completion) (today : Nat) : Nat :=
  if qualifies timesPerDay ledger today then streakBack timesPerDay ledger today
  else
    match today with
    | 0 => 0
    | d + 1 => streakBack timesPerDay ledger d

/-- Habit states reachable from a fresh habit row (SQL defaults
`current_streak = 0`, `best_streak = 0`, empty ledger) by any sequence of
record and undo operations. -/
inductive Reachable : UserHabit × List Completion → Prop
  | init (tpd : Nat) (ca : Option Nat) : Reachable (⟨0, 0, tpd, ca⟩, [])
  | step_record (s : UserHabit × List Completion) (now newId : Nat) :
      Reachable s → Reachable (handleComplete now newId s.1 s.2)
  | step_undo (s : UserHabit × List Completion) (today : Nat) :
      Reachable s → Reachable (handleUndo today s.1 s.2).2

/-- JavaScript `Math.round` on the nonnegative values arising here:
round half up, i.e. the floor of the argument plus one half. -/
def jsRound (q : ℚ) : ℤ := ⌊q + 1 / 2⌋

/-- `daysActive` of `loadProgressData` in ProgressPage:
`Math.floor((today - createdAt) / dayMs) + 1`, with times in milliseconds. -/
def daysActive (nowMs createdMs : Nat) : Nat :=
  (nowMs - createdMs) / 86400000 + 1

/-- `success_rate` of `loadProgressData` in ProgressPage:
`Math.round(daysActive > 0 ? totalCompletions / daysActive * 100 : 0)`,
with no clamping to 100. -/
def successRate (totalCompletions days : Nat) : ℤ :=
  jsRound (if 0 < days then (totalCompletions : ℚ) / days * 100 else 0)

/-- The fields of a `user_habits` row used by the weekly tracker:
id and the calendar day of `created_at`. -/
structure WeeklyHabit where
  id : Nat
  createdDay : Nat
deriving DecidableEq, Repr

/-- A `habit_completions` row as seen by the weekly tracker: habit id and
calendar day of `completed_at`. -/
structure DayCompletion where
  userHabitId : Nat
  day : Nat
deriving DecidableEq, Repr

/-- One element of the `weeklyData` array built by `loadWeeklyData`. -/
structure DayData where
  date : Nat
  completionRate : ℤ
  completedHabits : Nat
  totalHabits : Nat
deriving DecidableEq, Repr

/-- The body of the per-day loop of `loadWeeklyData` in WeeklyTracker:
habits created on or before the day are eligible; with no eligible habit the
day reports zeros; otherwise the completion rate is the rounded percentage
of distinct eligible habits having at least one completion on the day. -/
def weeklyDayData (habits : List WeeklyHabit) (completions : List DayCompletion)
    (d : Nat) : DayData :=
  let habitsActiveOnDate := habits.filter (fun h => h.createdDay ≤ d)
  if habitsActiveOnDate.length = 0 then ⟨d, 0, 0, 0⟩
  else
    let dayCompletions := completions.filter
      (fun c => habitsActiveOnDate.any (fun h => h.id == c.userHabitId) && c.day == d)
    let completedHabits := (dayCompletions.map (fun c => c.userHabitId)).dedup.length
    let totalHabits := habitsActiveOnDate.length
    let completionRate : ℚ :=
      if 0 < totalHabits then (completedHabits : ℚ) / totalHabits * 100 else 0
    ⟨d, jsRound completionRate, completedHabits, totalHabits⟩

/-- `loadWeeklyData` of WeeklyTracker: the day statistics for the trailing
seven days ending today. -/
def loadWeeklyData (habits : List WeeklyHabit) (completions : List DayCompletion)
    (today : Nat) : List DayData :=
  ((List.range 7).map (fun i => today - 6 + i)).map (weeklyDayData habits completions)

/-- Modelled from the spec: the per-day statistic of `weeklyTracker` in
section 4.3.  `eligible` is the set of habits with `createdAt ≤ d`; with no
eligible habit the rate is 0; otherwise `completedCount` is the number of
distinct eligible habits with at least one completion on `d` and the rate is
`round(100 * completedCount / |eligible|)`. -/
def specDayStat (habits : List WeeklyHabit) (completions : List DayCompletion)
    (d : Nat) : DayData :=
  let eligible := habits.filter (fun h => h.createdDay ≤ d)
  if eligible = [] then ⟨d, 0, 0, 0⟩
  else
    let completedCount :=
      ((eligible.filter (fun h =>
          completions.any (fun c => c.userHabitId == h.id && c.day == d))).map
        (fun h => h.id)).toFinset.card
    ⟨d, jsRound (100 * completedCount / (eligible.length : ℚ)),
      completedCount, eligible.length⟩

/-- JavaScript `String.prototype.trim`: strip leading and trailing
whitespace. -/
def jsTrim (s : String) : String :=
  String.mk (((s.toList.dropWhile Char.isWhitespace).reverse.dropWhile
    Char.isWhitespace).reverse)

/-- JavaScript `String.prototype.toUpperCase` on the ASCII codes appearing
here. -/
def jsToUpper (s : String) : String := String.mk (s.toList.map Char.toUpper)

/-- Membership status of a `community_members` row. -/
inductive MemberStatus
  | pending
  | accepted
  | rejected
deriving DecidableEq, Repr

/-- A `communities` row. -/
structure Community where
  id : Nat
  name : String
  code : String
  isPrivate : Bool
  ownerId : Nat
deriving DecidableEq, Repr

/-- A `community_members` row. -/
structure CommunityMember where
  communityId : Nat
  userId : Nat
  status : MemberStatus
deriving DecidableEq, Repr

/-- The community tables of the relational store. -/
structure Store where
  communities : List Community
  communityMembers : List CommunityMember
deriving DecidableEq, Repr

/-- The row-level-security SELECT policy on `communities`: a community row
is visible to its owner and to users holding an accepted membership. -/
def communityVisible (uid : Nat) (s : Store) (c : Community) : Bool :=
  uid == c.ownerId ||
    s.communityMembers.any
      (fun m => m.communityId == c.id && m.userId == uid && m.status == .accepted)

/-- The row-level-security SELECT policy on `community_members`: a
membership row is visible to the owner of its community and to its own
user. -/
def memberRowVisible (uid : Nat) (s : Store) (m : CommunityMember) : Bool :=
  s.communities.any (fun c => c.id == m.communityId && c.ownerId == uid) ||
    m.userId == uid

/-- Caller-visible outcome of `handleJoinCommunity`. -/
inductive JoinResult
  | noInput
  | notFound
  | alreadyMember
  | joined (status : MemberStatus)
  | insertFailed
deriving DecidableEq, Repr

/-- `handleJoinCommunity` of CommunityPage: look up the community by the
trimmed, uppercased code (selecting among rows visible under row-level
security), fail if absent; fail if a membership row for this community and
user is already visible; otherwise insert a membership, pending for a
private community and accepted otherwise.  The insert hits the UNIQUE
(community_id, user_id) constraint when a row already exists. -/
def handleJoinCommunity (uid : Nat) (s : Store) (joinCode : String) :
    JoinResult × Store :=
  if jsTrim joinCode = "" then (.noInput, s)
  else
    match (s.communities.filter (communityVisible uid s)).find?
        (fun c => c.code == jsToUpper (jsTrim joinCode)) with
    | none => (.notFound, s)
    | some community =>
      match (s.communityMembers.filter (memberRowVisible uid s)).find?
          (fun m => m.communityId == community.id && m.userId == uid) with
      | some _ => (.alreadyMember, s)
      | none =>
        if s.communityMembers.any
            (fun m => m.communityId == community.id && m.userId == uid) then
          (.insertFailed, s)
        else
          (.joined (if community.isPrivate then MemberStatus.pending else .accepted),
            { s with communityMembers := s.communityMembers ++
                [⟨community.id, uid,
                  if community.isPrivate then MemberStatus.pending else .accepted⟩] })

/-- Digit characters of `Number.prototype.toString(36)`: 0-9 then a-z. -/
def base36Digit (n : Nat) : Char :=
  if n < 10 then Char.ofNat (48 + n) else Char.ofNat (87 + n)

/-- `generateCommunityCode` of CommunityPage:
`Math.random().toString(36).substring(2, 8).toUpperCase()`.  The argument is
the base-36 fractional expansion of the random number as printed by
`toString(36)` (shortest form, so trailing zero digits are absent and the
list is empty for zero); `substring(2, 8)` keeps at most the first six
digits, which are then uppercased. -/
def generateCommunityCode (digits : List Nat) : String :=
  String.mk (((digits.take 6).map base36Digit).map Char.toUpper)

/-- Caller-visible outcome of `handleCreateCommunity`. -/
inductive CreateResult
  | noInput
  | created (c : Community)
  | insertFailed
deriving DecidableEq, Repr

/-- `handleCreateCommunity` of CommunityPage: reject a blank name, generate
one code, and insert.  A code collision violates the UNIQUE constraint on
`communities.code`, the insert throws, and the handler reports failure
without regenerating the code. -/
def handleCreateCommunity (uid : Nat) (s : Store) (nameInput : String)
    (isPrivate : Bool) (digits : List Nat) (newId : Nat) : CreateResult × Store :=
  if jsTrim nameInput = "" then (.noInput, s)
  else
    let code := generateCommunityCode digits
    if s.communities.any (fun c => c.code == code) then (.insertFailed, s)
    else
      let c : Community := ⟨newId, jsTrim nameInput, code, isPrivate, uid⟩
      (.created c, { s with communities := s.communities ++ [c] })

/-- One element of the `allCommunities` array built by `loadCommunities`. -/
structure CommunityView where
  community : Community
  isOwner : Bool
  memberStatus : MemberStatus
deriving DecidableEq, Repr

/-- The nested `communities` object of a membership row returned by the
join query: the referenced community when it is visible to the caller under
row-level security, and null otherwise. -/
def nestedCommunity (uid : Nat) (s : Store) (m : CommunityMember) : Option Community :=
  Option.filter (communityVisible uid s) (s.communities.find? (fun c => c.id == m.communityId))

/-- The push step of `loadCommunities` for one membership row: skip rows
whose nested community is null or whose community id is already present. -/
def pushMemberCommunity (uid : Nat) (s : Store) (acc : List CommunityView)
    (m : CommunityMember) : List CommunityView :=
  match nestedCommunity uid s m with
  | some c =>
      if acc.any (fun v => v.community.id == c.id) then acc
      else acc ++ [⟨c, false, m.status⟩]
  | none => acc

/-- The `ownedCommunities` query of `loadCommunities`: the communities
owned by the user, formatted as views with owner flag and accepted status. -/
def ownedViews (uid : Nat) (s : Store) : List CommunityView :=
  (s.communities.filter (fun c => c.ownerId == uid)).map
    (fun c => ⟨c, true, .accepted⟩)

/-- The `memberCommunities` query of `loadCommunities`: the membership rows
of the user, as returned under the row-level-security filter. -/
def memberRows (uid : Nat) (s : Store) : List CommunityMember :=
  (s.communityMembers.filter (memberRowVisible uid s)).filter (fun m => m.userId == uid)

/-- `loadCommunities` of CommunityPage: owned communities first (marked
owner, status accepted), then the communities of the membership rows of the
user, skipping null nested rows and duplicates. -/
def loadCommunities (uid : Nat) (s : Store) : List CommunityView :=
  (memberRows uid s).foldl (pushMemberCommunity uid s) (ownedViews uid s)

/-! Helper lemmas for the claim theorems. -/

/-- The undo handler never modifies the habit row. -/
theorem handleUndo_habit (today : Nat) (h : UserHabit) (l : List Completion) :
    (handleUndo today h l).2.1 = h := by
  unfold handleUndo
  split
  · rfl
  · split <;> rfl

/-! Claim theorems. -/

/-- Claim C1, behavior of the code at the failing input: a habit with
`timesPerDay = 3` and three record calls on day 1 ends with
`completionsOn(day) = 3` (the day qualifies), yet the stored
`currentStreak` is 3 (one increment per record call), while the
qualifying-day recompute of the ledger yields exactly 1. -/
theorem record_streak_not_recomputed :
    (let h0 : UserHabit := ⟨0, 0, 3, none⟩
     let s1 := handleComplete 86401 1 h0 []
     let s2 := handleComplete 86402 2 s1.1 s1.2
     let s3 := handleComplete 86403 3 s2.1 s2.2
     completionsOn s3.2 1 = 3 ∧ s3.1.currentStreak = 3 ∧
       specCurrentStreak 3 s3.2 1 = 1) := by decide

/-- Claim C2, counterexample: with `timesPerDay = 1` and one completion
already recorded today, a record call appends nothing and leaves the state
unchanged, contradicting the claim that a completion is always appended. -/
theorem record_rejects_at_target :
    handleComplete 90000 2 ⟨0, 0, 1, none⟩ [⟨1, 86401, 1⟩] =
      (⟨0, 0, 1, none⟩, [⟨1, 86401, 1⟩]) := by decide

/-- Claim C2, amended: a record call appends a completion exactly when the
completion count of the current day is still below `timesPerDay`; at or
above the target the handler returns early and the ledger and habit are
unchanged. -/
theorem record_appends_iff_below_target (now newId : Nat) (habit : UserHabit)
    (ledger : List Completion) :
    (habit.timesPerDay ≤ completionsOn ledger (dayOfTs now) →
        handleComplete now newId habit ledger = (habit, ledger)) ∧
    (completionsOn ledger (dayOfTs now) < habit.timesPerDay →
        handleComplete now newId habit ledger =
          ({ habit with
              currentStreak := habit.currentStreak + 1,
              bestStreak := max (habit.currentStreak + 1) habit.bestStreak },
            ledger ++ [⟨newId, now, jsOr1 habit.customAmount⟩])) := by
  constructor
  · intro h
    unfold handleComplete
    rw [if_pos h]
  · intro h
    unfold handleComplete
    rw [if_neg (Nat.not_le.mpr h)]

/-- Claim C2, witness for the amended theorem at a concrete state below the
target. -/
theorem record_appends_iff_below_target_witness :
    completionsOn [⟨1, 86401, 1⟩] (dayOfTs 90000) <
      (⟨0, 0, 2, none⟩ : UserHabit).timesPerDay ∧
    handleComplete 90000 2 ⟨0, 0, 2, none⟩ [⟨1, 86401, 1⟩] =
      ({ (⟨0, 0, 2, none⟩ : UserHabit) with
          currentStreak := 0 + 1, bestStreak := max (0 + 1) 0 },
        [⟨1, 86401, 1⟩] ++ [⟨2, 90000, jsOr1 none⟩]) :=
  ⟨by decide,
    (record_appends_iff_below_target 90000 2 ⟨0, 0, 2, none⟩ [⟨1, 86401, 1⟩]).2 (by decide)⟩

/-- Claim C3, behavior of the code at the failing input: undoing the only
completion of day 1 deletes it from the ledger but leaves the stored
`currentStreak` at 1, while the qualifying-day recompute of the
post-deletion ledger yields 0. -/
theorem undo_streak_not_recomputed :
    handleUndo 1 ⟨1, 1, 1, none⟩ [⟨0, 86405, 1⟩] =
      (some .undone, ⟨1, 1, 1, none⟩, []) ∧
    specCurrentStreak 1 [] 1 = 0 := by decide

/-- Claim C4, counterexample: undo on a habit with an empty ledger returns
the silent no-op, with no toast and no error of any kind, contradicting the
claim that the operation fails with NotFoundError. -/
theorem undo_empty_silent :
    handleUndo 1 ⟨2, 3, 1, none⟩ [] = (none, ⟨2, 3, 1, none⟩, []) := by decide

/-- Claim C4, amended: undo on a habit with zero completions on the given
day is a silent no-op: the handler returns early, emits no signal, deletes
nothing, and the ledger is unchanged. -/
theorem undo_no_completions_noop (today : Nat) (habit : UserHabit)
    (ledger : List Completion) (h : completionsOn ledger today = 0) :
    handleUndo today habit ledger = (none, habit, ledger) := by
  unfold handleUndo
  rw [if_pos h]

/-- Claim C4, witness for the amended theorem. -/
theorem undo_no_completions_noop_witness :
    completionsOn [] 5 = 0 ∧
    handleUndo 5 ⟨0, 0, 1, none⟩ [] = (none, ⟨0, 0, 1, none⟩, []) :=
  ⟨by decide, undo_no_completions_noop 5 ⟨0, 0, 1, none⟩ [] (by decide)⟩

/-- Claim C5: in every habit state reachable from a fresh habit by record
and undo operations, `bestStreak` dominates `currentStreak`: the record
handler sets the best streak to the max of the new streak and the old best,
and the undo handler never touches the habit row. -/
theorem record_undo_bestStreak_invariant (s : UserHabit × List Completion)
    (hs : Reachable s) : s.1.currentStreak ≤ s.1.bestStreak := by
  induction hs with
  | init tpd ca => exact Nat.le_refl 0
  | step_record s now newId _ ih =>
      unfold handleComplete
      split
      · exact ih
      · exact Nat.le_max_left _ _
  | step_undo s today _ ih =>
      rw [handleUndo_habit]
      exact ih

/-- Claim C5, witness: the invariant at the state reached by one record
call on a fresh habit. -/
theorem record_undo_bestStreak_invariant_witness :
    (handleComplete 86401 1 ⟨0, 0, 3, none⟩ []).1.currentStreak ≤
      (handleComplete 86401 1 ⟨0, 0, 3, none⟩ []).1.bestStreak :=
  record_undo_bestStreak_invariant _
    (Reachable.step_record (⟨0, 0, 3, none⟩, []) 86401 1 (Reachable.init 3 none))

/-- Claim C10, counterexample: a habit created 200 days ago has
`daysActive = 201`; with 202 completion events the total exceeds
`daysActive`, yet the reported success rate is exactly 100, not strictly
greater. -/
theorem success_rate_at_201_days :
    daysActive 17280000000 0 = 201 ∧ 201 < 202 ∧ successRate 202 201 = 100 := by
  refine ⟨by norm_num [daysActive], by norm_num, ?_⟩
  norm_num [successRate, jsRound]

/-- Claim C10, amended: the success rate is not clamped to 100.  When the
number of completion events exceeds `daysActive` the reported rate is at
least 100; it is strictly greater than 100 whenever `201 * daysActive <
200 * totalCompletions`, and rounding brings it back to exactly 100
whenever `200 * totalCompletions < 201 * daysActive`. -/
theorem success_rate_unclamped (c d : Nat) (hd : 0 < d) (hcd : d < c) :
    100 ≤ successRate c d ∧
    (201 * d < 200 * c → 100 < successRate c d) ∧
    (200 * c < 201 * d → successRate c d = 100) := by
  have hd' : (0 : ℚ) < d := by exact_mod_cast hd
  have hx : (c : ℚ) / d * 100 = (100 * c : ℚ) / d := by ring
  have h1 : 100 ≤ successRate c d := by
    unfold successRate jsRound
    rw [if_pos hd, Int.le_floor, hx]
    have hdc : (d : ℚ) ≤ c := by exact_mod_cast hcd.le
    have h100 : (100 : ℚ) ≤ (100 * c : ℚ) / d := by
      rw [le_div_iff₀ hd']
      linarith
    push_cast
    linarith
  refine ⟨h1, ?_, ?_⟩
  · intro h
    have h' : (201 * d : ℚ) < 200 * c := by exact_mod_cast h
    unfold successRate jsRound
    rw [if_pos hd]
    rw [show (100 : ℤ) < ⌊(c : ℚ) / d * 100 + 1 / 2⌋ ↔
        (101 : ℤ) ≤ ⌊(c : ℚ) / d * 100 + 1 / 2⌋ from Int.lt_iff_add_one_le]
    rw [Int.le_floor, hx]
    have : (201 : ℚ) / 2 ≤ (100 * c : ℚ) / d := by
      rw [div_le_div_iff₀ (by norm_num) hd']
      linarith
    push_cast
    linarith
  · intro h
    have h' : (200 * c : ℚ) < 201 * d := by exact_mod_cast h
    have h2 : successRate c d < 101 := by
      unfold successRate jsRound
      rw [if_pos hd, Int.floor_lt, hx]
      have : (100 * c : ℚ) / d < (201 : ℚ) / 2 := by
        rw [div_lt_div_iff₀ hd' (by norm_num)]
        linarith
      push_cast
      linarith
    omega

/-- Claim C10, witness for the amended theorem: three completions in one
active day give a success rate of 300, above 100. -/
theorem success_rate_unclamped_witness :
    0 < 1 ∧ 1 < 3 ∧ 100 ≤ successRate 3 1 ∧ 100 < successRate 3 1 :=
  ⟨by norm_num, by norm_num, (success_rate_unclamped 3 1 (by norm_num) (by norm_num)).1,
    (success_rate_unclamped 3 1 (by norm_num) (by norm_num)).2.1 (by norm_num)⟩

/-- The distinct habit ids appearing among the completions of day `d` that
belong to eligible habits coincide with the ids of the eligible habits
having at least one completion on `d`. -/
theorem weekly_completed_ids (habits : List WeeklyHabit)
    (completions : List DayCompletion) (d : Nat) :
    ((completions.filter (fun c =>
        (habits.filter (fun h => h.createdDay ≤ d)).any
          (fun h => h.id == c.userHabitId) && c.day == d)).map
      (fun c => c.userHabitId)).toFinset =
    (((habits.filter (fun h => h.createdDay ≤ d)).filter (fun h =>
        completions.any (fun c => c.userHabitId == h.id && c.day == d))).map
      (fun h => h.id)).toFinset := by
  ext i
  simp only [List.mem_toFinset, List.mem_map, List.mem_filter, List.any_eq_true,
    Bool.and_eq_true, beq_iff_eq, decide_eq_true_eq]
  constructor
  · rintro ⟨c, ⟨hc, ⟨h, ⟨hh, hhd⟩, hid⟩, hday⟩, rfl⟩
    exact ⟨h, ⟨⟨hh, hhd⟩, ⟨c, hc, hid.symm, hday⟩⟩, hid⟩
  · rintro ⟨h, ⟨⟨hh, hhd⟩, ⟨c, hc, hid, hday⟩⟩, rfl⟩
    exact ⟨c, ⟨hc, ⟨h, ⟨hh, hhd⟩, hid.symm⟩, hday⟩, hid⟩

/-- The per-day statistic computed by the code equals the statistic the
spec describes. -/
theorem weekly_day_matches_spec (habits : List WeeklyHabit)
    (completions : List DayCompletion) (d : Nat) :
    weeklyDayData habits completions d = specDayStat habits completions d := by
  simp only [weeklyDayData, specDayStat]
  by_cases h0 : habits.filter (fun h => h.createdDay ≤ d) = []
  · rw [h0]
    simp
  · have hlen0 : ¬(habits.filter (fun h => h.createdDay ≤ d)).length = 0 := by
      simpa [List.length_eq_zero] using h0
    rw [if_neg hlen0, if_neg h0, if_pos (Nat.pos_of_ne_zero hlen0)]
    have hcards :
        ((completions.filter (fun c =>
            (habits.filter (fun h => h.createdDay ≤ d)).any
              (fun h => h.id == c.userHabitId) && c.day == d)).map
          (fun c => c.userHabitId)).dedup.length =
        (((habits.filter (fun h => h.createdDay ≤ d)).filter (fun h =>
            completions.any (fun c => c.userHabitId == h.id && c.day == d))).map
          (fun h => h.id)).toFinset.card := by
      rw [← List.card_toFinset, weekly_completed_ids]
    rw [hcards]
    have hrate :
        ((((habits.filter (fun h => h.createdDay ≤ d)).filter (fun h =>
            completions.any (fun c => c.userHabitId == h.id && c.day == d))).map
          (fun h => h.id)).toFinset.card : ℚ) /
            ((habits.filter (fun h => h.createdDay ≤ d)).length : ℚ) * 100 =
        100 * ((((habits.filter (fun h => h.createdDay ≤ d)).filter (fun h =>
            completions.any (fun c => c.userHabitId == h.id && c.day == d))).map
          (fun h => h.id)).toFinset.card : ℚ) /
            ((habits.filter (fun h => h.createdDay ≤ d)).length : ℚ) := by
      ring
    rw [hrate]

/-- Claim C6: for every day of the trailing seven days, the weekly tracker
reports the day statistic of the spec: habits created on or before the day
are eligible, an empty eligible set gives rate 0, and otherwise the rate is
the rounded percentage of distinct eligible habits completed that day. -/
theorem weekly_tracker_matches_spec (habits : List WeeklyHabit)
    (completions : List DayCompletion) (today : Nat) :
    loadWeeklyData habits completions today =
      ((List.range 7).map (fun i => today - 6 + i)).map
        (specDayStat habits completions) :=
  List.map_congr_left (fun d _ => weekly_day_matches_spec habits completions d)

/-- Each uppercased base-36 digit is an ASCII digit or an uppercase
letter. -/
theorem base36Digit_upper_alnum (n : Nat) (hn : n < 36) :
    ('0' ≤ (base36Digit n).toUpper ∧ (base36Digit n).toUpper ≤ '9') ∨
      ('A' ≤ (base36Digit n).toUpper ∧ (base36Digit n).toUpper ≤ 'Z') := by
  interval_cases n <;> decide

/-- Claim C8, counterexample: a creation whose random number is one half
(base-36 expansion `[18]`, printed `0.i`) succeeds with the one-character
code `I`, so a successfully generated code need not have six characters;
and a second creation colliding on the code fails outright instead of
regenerating. -/
theorem community_code_short_and_no_retry :
    handleCreateCommunity 1 ⟨[], []⟩ "Runners" true [18] 0 =
      (.created ⟨0, "Runners", "I", true, 1⟩, ⟨[⟨0, "Runners", "I", true, 1⟩], []⟩) ∧
    (generateCommunityCode [18]).length = 1 ∧
    handleCreateCommunity 1 ⟨[⟨0, "Runners", "I", true, 1⟩], []⟩ "Sprinters" false [18] 1 =
      (.insertFailed, ⟨[⟨0, "Runners", "I", true, 1⟩], []⟩) := by decide

/-- Claim C8, amended: the generated code has at most six characters, each
an uppercase letter or digit; a collision with an existing code makes the
creation fail with no regeneration; and the uniqueness of stored codes is
preserved by every creation, so no two created communities share a code. -/
theorem community_code_properties :
    (∀ digits : List Nat, (∀ n ∈ digits, n < 36) →
        (generateCommunityCode digits).length ≤ 6 ∧
        ∀ ch ∈ (generateCommunityCode digits).data,
          ('0' ≤ ch ∧ ch ≤ '9') ∨ ('A' ≤ ch ∧ ch ≤ 'Z')) ∧
    (∀ (uid : Nat) (s : Store) (nameInput : String) (isPrivate : Bool)
        (digits : List Nat) (newId : Nat),
        jsTrim nameInput ≠ "" →
        s.communities.any (fun c => c.code == generateCommunityCode digits) = true →
        handleCreateCommunity uid s nameInput isPrivate digits newId =
          (.insertFailed, s)) ∧
    (∀ (uid : Nat) (s : Store) (nameInput : String) (isPrivate : Bool)
        (digits : List Nat) (newId : Nat),
        (s.communities.map (fun c => c.code)).Nodup →
        (((handleCreateCommunity uid s nameInput isPrivate digits newId).2).communities.map
          (fun c => c.code)).Nodup) := by
  refine ⟨?_, ?_, ?_⟩
  · intro digits hd
    constructor
    · show (((digits.take 6).map base36Digit).map Char.toUpper).length ≤ 6
      simp [List.length_take]
    · intro ch hch
      simp only [generateCommunityCode, String.mk, List.mem_map] at hch
      obtain ⟨c0, ⟨n, hn, rfl⟩, rfl⟩ := hch
      exact base36Digit_upper_alnum n (hd n (List.mem_of_mem_take hn))
  · intro uid s nameInput isPrivate digits newId hname hany
    unfold handleCreateCommunity
    rw [if_neg hname, if_pos hany]
  · intro uid s nameInput isPrivate digits newId hnd
    unfold handleCreateCommunity
    dsimp only
    split
    · exact hnd
    · split
      · exact hnd
      · rename_i hany
        simp only [List.any_eq_true, beq_iff_eq, not_exists, not_and] at hany
        simp only [List.map_append, List.map_cons, List.map_nil]
        rw [List.nodup_append]
        refine ⟨hnd, List.nodup_singleton _, ?_⟩
        intro a ha hb
        simp only [List.mem_singleton] at hb
        obtain ⟨c0, hc0, rfl⟩ := List.mem_map.mp ha
        exact hany c0 hc0 (by simpa using hb)

/-- Claim C8, witness for the amended theorem at concrete digits, a
colliding store and a unique-code store. -/
theorem community_code_properties_witness :
    (generateCommunityCode [18, 2]).length ≤ 6 ∧
    handleCreateCommunity 1 ⟨[⟨0, "A", "I2", false, 1⟩], []⟩ "Runners" true [18, 2] 5 =
      (.insertFailed, ⟨[⟨0, "A", "I2", false, 1⟩], []⟩) ∧
    (((handleCreateCommunity 1 ⟨[⟨0, "A", "XY", false, 1⟩], []⟩ "Runners" true
        [18, 2] 5).2).communities.map (fun c => c.code)).Nodup :=
  ⟨(community_code_properties.1 [18, 2] (by decide)).1,
    community_code_properties.2.1 1 ⟨[⟨0, "A", "I2", false, 1⟩], []⟩ "Runners" true
      [18, 2] 5 (by decide) (by decide),
    community_code_properties.2.2 1 ⟨[⟨0, "A", "XY", false, 1⟩], []⟩ "Runners" true
      [18, 2] 5 (by decide)⟩

/-- A find over a list returns the unique element satisfying the
predicate. -/
theorem find?_eq_of_unique {α : Type} {l : List α} {p : α → Bool} {a : α} :
    a ∈ l → p a = true → (∀ b ∈ l, p b = true → b = a) → l.find? p = some a := by
  induction l with
  | nil => intro ha _ _; cases ha
  | cons x xs ih =>
    intro ha hpa huniq
    by_cases hx : p x = true
    · rw [List.find?_cons_of_pos _ hx, huniq x (List.mem_cons_self x xs) hx]
    · rw [List.find?_cons_of_neg _ hx]
      rcases List.mem_cons.mp ha with rfl | hm
      · exact absurd hpa hx
      · exact ih hm hpa (fun b hb hpb => huniq b (List.mem_cons_of_mem _ hb) hpb)

/-- The visibility predicate on communities, read as a proposition. -/
theorem communityVisible_iff (uid : Nat) (s : Store) (c : Community) :
    communityVisible uid s c = true ↔
      (uid = c.ownerId ∨ ∃ m ∈ s.communityMembers,
        m.communityId = c.id ∧ m.userId = uid ∧ m.status = .accepted) := by
  simp [communityVisible, List.any_eq_true, and_assoc]

/-- Claim C7, precise conflict case: when the community matching the code
is visible to the user and a membership row for it and the user exists, the
join reports the duplicate and inserts nothing. -/
theorem join_conflict (uid : Nat) (s : Store) (raw : String) (c : Community)
    (m : CommunityMember)
    (hnd : (s.communities.map (fun x => x.code)).Nodup)
    (hraw : ¬jsTrim raw = "")
    (hc : c ∈ s.communities)
    (hcode : c.code = jsToUpper (jsTrim raw))
    (hvis : communityVisible uid s c = true)
    (hm : m ∈ s.communityMembers)
    (hmc : m.communityId = c.id) (hmu : m.userId = uid) :
    handleJoinCommunity uid s raw = (.alreadyMember, s) := by
  have hfind : (s.communities.filter (communityVisible uid s)).find?
      (fun x => x.code == jsToUpper (jsTrim raw)) = some c := by
    apply find?_eq_of_unique (List.mem_filter.mpr ⟨hc, hvis⟩)
      (by simpa using hcode)
    intro b hb hpb
    have hb' := (List.mem_filter.mp hb).1
    have hbc : b.code = jsToUpper (jsTrim raw) := by simpa using hpb
    exact List.inj_on_of_nodup_map hnd hb' hc (hbc.trans hcode.symm)
  have hmemfind : ((s.communityMembers.filter (memberRowVisible uid s)).find?
      (fun x => x.communityId == c.id && x.userId == uid)).isSome := by
    rw [List.find?_isSome]
    refine ⟨m, List.mem_filter.mpr ⟨hm, ?_⟩, by simp [hmc, hmu]⟩
    simp [memberRowVisible, hmu]
  obtain ⟨m', hm'⟩ := Option.isSome_iff_exists.mp hmemfind
  unfold handleJoinCommunity
  rw [if_neg hraw, hfind]
  dsimp only
  rw [hm']

/-- The join reports not-found whenever every community carrying the looked
up code is invisible to the user. -/
theorem join_notFound (uid : Nat) (s : Store) (raw : String)
    (hraw : ¬jsTrim raw = "")
    (hinvis : ∀ c ∈ s.communities, c.code = jsToUpper (jsTrim raw) →
      communityVisible uid s c = false) :
    handleJoinCommunity uid s raw = (.notFound, s) := by
  have hfind : (s.communities.filter (communityVisible uid s)).find?
      (fun x => x.code == jsToUpper (jsTrim raw)) = none := by
    rw [List.find?_eq_none]
    intro x hx hpx
    obtain ⟨hx1, hx2⟩ := List.mem_filter.mp hx
    have hxc : x.code = jsToUpper (jsTrim raw) := by simpa using hpx
    rw [hinvis x hx1 hxc] at hx2
    cases hx2
  unfold handleJoinCommunity
  rw [if_neg hraw, hfind]

/-- Claim C7, precise pending/rejected case: when the community carrying
the code is unique, the user is not its owner and holds no accepted
membership for it, the community row is invisible under row-level security
and the join reports not-found, inserting nothing. -/
theorem join_pending_notFound (uid : Nat) (s : Store) (raw : String) (c : Community)
    (hnd : (s.communities.map (fun x => x.code)).Nodup)
    (hraw : ¬jsTrim raw = "")
    (hc : c ∈ s.communities)
    (hcode : c.code = jsToUpper (jsTrim raw))
    (howner : uid ≠ c.ownerId)
    (hnoacc : ∀ m ∈ s.communityMembers, m.communityId = c.id → m.userId = uid →
      m.status ≠ .accepted) :
    handleJoinCommunity uid s raw = (.notFound, s) := by
  apply join_notFound uid s raw hraw
  intro x hx hxcode
  have hxc : x = c := List.inj_on_of_nodup_map hnd hx hc (hxcode.trans hcode.symm)
  subst hxc
  rw [Bool.eq_false_iff]
  intro hvis
  rcases (communityVisible_iff uid s x).mp hvis with h | ⟨m, hm, h1, h2, h3⟩
  · exact howner h
  · exact hnoacc m hm h1 h2 h3

/-- Claim C7, second-call case: after a successful join, repeating the same
call fails — with the duplicate report when the community is still visible
(public join, or owner), and with not-found when the new membership is
pending and hides the community.  Either way the store is unchanged. -/
theorem join_twice (uid : Nat) (s : Store) (raw : String) (st : MemberStatus)
    (s' : Store)
    (hnd : (s.communities.map (fun x => x.code)).Nodup)
    (hfirst : handleJoinCommunity uid s raw = (.joined st, s')) :
    handleJoinCommunity uid s' raw = (.alreadyMember, s') ∨
      handleJoinCommunity uid s' raw = (.notFound, s') := by
  unfold handleJoinCommunity at hfirst
  by_cases hraw : jsTrim raw = ""
  · rw [if_pos hraw] at hfirst
    simp at hfirst
  rw [if_neg hraw] at hfirst
  cases hfindc : (s.communities.filter (communityVisible uid s)).find?
      (fun x => x.code == jsToUpper (jsTrim raw)) with
  | none =>
    rw [hfindc] at hfirst
    simp at hfirst
  | some c =>
    rw [hfindc] at hfirst
    dsimp only at hfirst
    cases hfindm : (s.communityMembers.filter (memberRowVisible uid s)).find?
        (fun x => x.communityId == c.id && x.userId == uid) with
    | some m =>
      rw [hfindm] at hfirst
      simp at hfirst
    | none =>
      rw [hfindm] at hfirst
      dsimp only at hfirst
      by_cases hany : (s.communityMembers.any
          (fun x => x.communityId == c.id && x.userId == uid)) = true
      · rw [if_pos hany] at hfirst
        simp at hfirst
      rw [if_neg hany] at hfirst
      rw [Prod.mk.injEq] at hfirst
      obtain ⟨h1, h2⟩ := hfirst
      obtain ⟨hcmem, hcvis⟩ := List.mem_filter.mp (List.mem_of_find?_eq_some hfindc)
      have hccode : c.code = jsToUpper (jsTrim raw) := by
        simpa using List.find?_some hfindc
      have hnone : ∀ x ∈ s.communityMembers, ¬(x.communityId = c.id ∧ x.userId = uid) := by
        intro x hx hcontra
        exact hany (List.any_eq_true.mpr ⟨x, hx, by simp [hcontra.1, hcontra.2]⟩)
      subst h2
      by_cases hpriv : c.isPrivate
      · by_cases howner : uid = c.ownerId
        · left
          refine join_conflict uid _ raw c
            ⟨c.id, uid, if c.isPrivate then MemberStatus.pending else .accepted⟩
            hnd hraw hcmem hccode
            ((communityVisible_iff _ _ _).mpr (Or.inl howner))
            (List.mem_append_right _ (List.mem_singleton.mpr rfl)) rfl rfl
        · right
          refine join_pending_notFound uid _ raw c hnd hraw hcmem hccode howner ?_
          intro m hm hm1 hm2 hm3
          rcases List.mem_append.mp hm with hold | hnew
          · exact hnone m hold ⟨hm1, hm2⟩
          · rw [List.mem_singleton.mp hnew] at hm3
            rw [if_pos hpriv] at hm3
            cases hm3
      · left
        refine join_conflict uid _ raw c
          ⟨c.id, uid, if c.isPrivate then MemberStatus.pending else .accepted⟩
          hnd hraw hcmem hccode ?_
          (List.mem_append_right _ (List.mem_singleton.mpr rfl)) rfl rfl
        refine (communityVisible_iff _ _ _).mpr (Or.inr
          ⟨⟨c.id, uid, if c.isPrivate then MemberStatus.pending else .accepted⟩,
            List.mem_append_right _ (List.mem_singleton.mpr rfl), rfl, rfl, ?_⟩)
        rw [if_neg hpriv]

/-- Claim C7, counterexample: a user holding a Pending membership of a
private community repeats the join with the valid code; row-level security
hides the community row, so the call fails not-found rather than with the
duplicate-membership conflict the claim requires for every status. -/
theorem joinByCode_pending_not_conflict :
    handleJoinCommunity 2
        ⟨[⟨0, "Runners", "ABC123", true, 1⟩], [⟨0, 2, .pending⟩]⟩ "ABC123" =
      (.notFound, ⟨[⟨0, "Runners", "ABC123", true, 1⟩], [⟨0, 2, .pending⟩]⟩) := by
  decide

/-- Claim C7, amended: with unique community codes, a join by a user who
already holds a membership row never inserts a row and always fails: with
the duplicate report when the community is visible to the user (owner or
accepted member), with not-found when it is not (pending or rejected
non-owner); and a second identical call after a successful join fails one
of these two ways, leaving the store unchanged. -/
theorem joinByCode_duplicate_membership :
    (∀ (uid : Nat) (s : Store) (raw : String) (c : Community) (m : CommunityMember),
        (s.communities.map (fun x => x.code)).Nodup → ¬jsTrim raw = "" →
        c ∈ s.communities → c.code = jsToUpper (jsTrim raw) →
        communityVisible uid s c = true →
        m ∈ s.communityMembers → m.communityId = c.id → m.userId = uid →
        handleJoinCommunity uid s raw = (.alreadyMember, s)) ∧
    (∀ (uid : Nat) (s : Store) (raw : String) (c : Community),
        (s.communities.map (fun x => x.code)).Nodup → ¬jsTrim raw = "" →
        c ∈ s.communities → c.code = jsToUpper (jsTrim raw) →
        uid ≠ c.ownerId →
        (∀ m ∈ s.communityMembers, m.communityId = c.id → m.userId = uid →
          m.status ≠ .accepted) →
        handleJoinCommunity uid s raw = (.notFound, s)) ∧
    (∀ (uid : Nat) (s : Store) (raw : String) (st : MemberStatus) (s' : Store),
        (s.communities.map (fun x => x.code)).Nodup →
        handleJoinCommunity uid s raw = (.joined st, s') →
        handleJoinCommunity uid s' raw = (.alreadyMember, s') ∨
          handleJoinCommunity uid s' raw = (.notFound, s')) :=
  ⟨join_conflict, join_pending_notFound, join_twice⟩

/-- Claim C7, witness: the owner joins their own public community with a
lowercase code, which succeeds (the only reachable success under row-level
security), and the identical second call fails, leaving the store
unchanged. -/
theorem joinByCode_duplicate_membership_witness :
    handleJoinCommunity 1
        ⟨[⟨7, "Runners", "CODE12", false, 1⟩], [⟨7, 1, .accepted⟩]⟩ "code12" =
      (.alreadyMember, ⟨[⟨7, "Runners", "CODE12", false, 1⟩], [⟨7, 1, .accepted⟩]⟩) ∨
    handleJoinCommunity 1
        ⟨[⟨7, "Runners", "CODE12", false, 1⟩], [⟨7, 1, .accepted⟩]⟩ "code12" =
      (.notFound, ⟨[⟨7, "Runners", "CODE12", false, 1⟩], [⟨7, 1, .accepted⟩]⟩) :=
  joinByCode_duplicate_membership.2.2 1 ⟨[⟨7, "Runners", "CODE12", false, 1⟩], []⟩
    "code12" .accepted ⟨[⟨7, "Runners", "CODE12", false, 1⟩], [⟨7, 1, .accepted⟩]⟩
    (by decide) (by decide)

/-- A non-null nested community is a stored community with the id of the
membership row, visible to the caller. -/
theorem nestedCommunity_spec {uid : Nat} {s : Store} {m : CommunityMember}
    {c : Community} (h : nestedCommunity uid s m = some c) :
    c ∈ s.communities ∧ c.id = m.communityId ∧ communityVisible uid s c = true := by
  unfold nestedCommunity at h
  cases hf : s.communities.find? (fun x => x.id == m.communityId) with
  | none =>
    rw [hf] at h
    simp [Option.filter] at h
  | some x =>
    rw [hf] at h
    by_cases hv : communityVisible uid s x = true
    · have hx : x = c := by simpa [Option.filter, hv] using h
      subst hx
      exact ⟨List.mem_of_find?_eq_some hf, by simpa using List.find?_some hf, hv⟩
    · have h' : (if communityVisible uid s x then some x else none) = some c := h
      rw [if_neg hv] at h'
      cases h' 

/-- Pushing a membership row preserves the accumulated views. -/
theorem pushMember_mono (uid : Nat) (s : Store) (acc : List CommunityView)
    (m : CommunityMember) (v : CommunityView) (hv : v ∈ acc) :
    v ∈ pushMemberCommunity uid s acc m := by
  unfold pushMemberCommunity
  cases hn : nestedCommunity uid s m with
  | none => exact hv
  | some c =>
    dsimp only
    split
    · exact hv
    · exact List.mem_append_left _ hv

/-- The member-row fold preserves the accumulated views. -/
theorem pushFold_mono (uid : Nat) (s : Store) (rows : List CommunityMember)
    (acc : List CommunityView) (v : CommunityView) (hv : v ∈ acc) :
    v ∈ rows.foldl (pushMemberCommunity uid s) acc := by
  induction rows generalizing acc with
  | nil => exact hv
  | cons m rows ih => exact ih _ (pushMember_mono uid s acc m v hv)

/-- Every view produced by the member-row fold is an accumulated view or
comes from a membership row with a non-null nested community. -/
theorem pushFold_sound (uid : Nat) (s : Store) (rows : List CommunityMember)
    (acc : List CommunityView) (v : CommunityView)
    (hv : v ∈ rows.foldl (pushMemberCommunity uid s) acc) :
    v ∈ acc ∨ ∃ m ∈ rows, ∃ c, nestedCommunity uid s m = some c ∧
      v = ⟨c, false, m.status⟩ := by
  induction rows generalizing acc with
  | nil => exact Or.inl hv
  | cons m rows ih =>
    rcases ih (pushMemberCommunity uid s acc m) hv with h | ⟨m', hm', c, hc, rfl⟩
    · unfold pushMemberCommunity at h
      cases hn : nestedCommunity uid s m with
      | none =>
        rw [hn] at h
        exact Or.inl h
      | some c =>
        rw [hn] at h
        dsimp only at h
        split at h
        · exact Or.inl h
        · rcases List.mem_append.mp h with h | h
          · exact Or.inl h
          · exact Or.inr ⟨m, List.mem_cons_self _ _, c, hn, List.mem_singleton.mp h⟩
    · exact Or.inr ⟨m', List.mem_cons_of_mem _ hm', c, hc, rfl⟩

/-- Every membership row with a non-null nested community contributes a
view with that community id to the member-row fold. -/
theorem pushFold_complete (uid : Nat) (s : Store) (rows : List CommunityMember)
    (acc : List CommunityView) (m : CommunityMember) (c : Community)
    (hm : m ∈ rows) (hc : nestedCommunity uid s m = some c) :
    ∃ v ∈ rows.foldl (pushMemberCommunity uid s) acc, v.community.id = c.id := by
  induction rows generalizing acc with
  | nil => cases hm
  | cons m' rows ih =>
    rcases List.mem_cons.mp hm with rfl | hm'
    · by_cases hany : (acc.any (fun v => v.community.id == c.id)) = true
      · obtain ⟨v, hv, hvid⟩ := List.any_eq_true.mp hany
        refine ⟨v, pushFold_mono uid s rows _ v (pushMember_mono uid s acc m v hv), ?_⟩
        simpa using hvid
      · have hpush : pushMemberCommunity uid s acc m = acc ++ [⟨c, false, m.status⟩] := by
          unfold pushMemberCommunity
          rw [hc]
          dsimp only
          rw [if_neg hany]
        refine ⟨⟨c, false, m.status⟩, ?_, rfl⟩
        rw [List.foldl_cons]
        apply pushFold_mono
        rw [hpush]
        exact List.mem_append_right _ (List.mem_singleton.mpr rfl)
    · exact ih (pushMemberCommunity uid s acc m') hm' 

/-- Every view produced by the member-row fold from views of stored
communities is itself a view of a stored community. -/
theorem pushFold_inStore (uid : Nat) (s : Store) (rows : List CommunityMember)
    (acc : List CommunityView)
    (hacc : ∀ v ∈ acc, v.community ∈ s.communities) :
    ∀ v ∈ rows.foldl (pushMemberCommunity uid s) acc, v.community ∈ s.communities := by
  induction rows generalizing acc with
  | nil => exact hacc
  | cons m rows ih =>
    apply ih
    intro v hv
    unfold pushMemberCommunity at hv
    cases hn : nestedCommunity uid s m with
    | none =>
      rw [hn] at hv
      exact hacc v hv
    | some c =>
      rw [hn] at hv
      dsimp only at hv
      split at hv
      · exact hacc v hv
      · rcases List.mem_append.mp hv with h | h
        · exact hacc v h
        · rw [List.mem_singleton.mp h]
          exact (nestedCommunity_spec hn).1

/-- Claim C9: a community appears in the list built by `loadCommunities`
exactly when the user owns it or holds an accepted membership for it;
communities where the membership is pending or rejected are filtered out by
row-level security (null nested row) and do not appear. -/
theorem visibleCommunities_owned_or_accepted (uid : Nat) (s : Store)
    (hnd : (s.communities.map (fun c => c.id)).Nodup) (c : Community) :
    (∃ v ∈ loadCommunities uid s, v.community = c) ↔
      (c ∈ s.communities ∧ (c.ownerId = uid ∨
        ∃ m ∈ s.communityMembers, m.communityId = c.id ∧ m.userId = uid ∧
          m.status = .accepted)) := by
  unfold loadCommunities
  constructor
  · rintro ⟨v, hv, rfl⟩
    rcases pushFold_sound uid s _ _ v hv with h | ⟨m, _, c0, hc0, rfl⟩
    · obtain ⟨c0, hc0, rfl⟩ := List.mem_map.mp h
      obtain ⟨hcm, hco⟩ := List.mem_filter.mp hc0
      exact ⟨hcm, Or.inl (by simpa using hco)⟩
    · obtain ⟨hcm, _, hvis⟩ := nestedCommunity_spec hc0
      refine ⟨hcm, ?_⟩
      rcases (communityVisible_iff uid s c0).mp hvis with h | ⟨m', hm', h1, h2, h3⟩
      · exact Or.inl h.symm
      · exact Or.inr ⟨m', hm', h1, h2, h3⟩
  · rintro ⟨hcm, howner | ⟨m, hm, h1, h2, h3⟩⟩
    · refine ⟨⟨c, true, .accepted⟩, ?_, rfl⟩
      apply pushFold_mono
      exact List.mem_map.mpr ⟨c, List.mem_filter.mpr ⟨hcm, by simp [howner]⟩, rfl⟩
    · have hrow : m ∈ memberRows uid s := by
        refine List.mem_filter.mpr ⟨List.mem_filter.mpr ⟨hm, ?_⟩, by simp [h2]⟩
        simp [memberRowVisible, h2]
      have hfind : s.communities.find? (fun x => x.id == m.communityId) = some c := by
        apply find?_eq_of_unique hcm (by simp [h1])
        intro b hb hpb
        have hbid : b.id = m.communityId := by simpa using hpb
        exact List.inj_on_of_nodup_map hnd hb hcm (hbid.trans h1)
      have hvis : communityVisible uid s c = true :=
        (communityVisible_iff uid s c).mpr (Or.inr ⟨m, hm, h1, h2, h3⟩)
      have hnested : nestedCommunity uid s m = some c := by
        unfold nestedCommunity
        rw [hfind]
        simp [Option.filter, hvis]
      obtain ⟨v, hv, hvid⟩ :=
        pushFold_complete uid s (memberRows uid s) (ownedViews uid s) m c hrow hnested
      have hvstore : v.community ∈ s.communities := by
        refine pushFold_inStore uid s (memberRows uid s) (ownedViews uid s) ?_ v hv
        intro v0 hv0
        obtain ⟨c0, hc0, rfl⟩ := List.mem_map.mp hv0
        exact (List.mem_filter.mp hc0).1
      exact ⟨v, hv, List.inj_on_of_nodup_map hnd hvstore hcm hvid⟩

/-- Claim C9, witness: with one owned community, one accepted membership
and one pending membership, the accepted community is visible. -/
theorem visibleCommunities_owned_or_accepted_witness :
    ∃ v ∈ loadCommunities 1
        ⟨[⟨0, "A", "AAA111", false, 1⟩, ⟨1, "B", "BBB222", false, 2⟩,
          ⟨2, "C", "CCC333", true, 3⟩],
         [⟨1, 1, .accepted⟩, ⟨2, 1, .pending⟩]⟩,
      v.community = ⟨1, "B", "BBB222", false, 2⟩ :=
  (visibleCommunities_owned_or_accepted 1
      ⟨[⟨0, "A", "AAA111", false, 1⟩, ⟨1, "B", "BBB222", false, 2⟩,
        ⟨2, "C", "CCC333", true, 3⟩],
       [⟨1, 1, .accepted⟩, ⟨2, 1, .pending⟩]⟩
      (by decide) ⟨1, "B", "BBB222", false, 2⟩).mpr (by decide)
